import Mathlib

/-!
Shallow embedding of the `bloom-filter` crate (`src/bloom.rs`) and proofs of
the specification claims about it.

The Rust `BloomFilter<T>` stores a hasher, a hash-round count `k : u32`, a
`BitVec` of length `m`, and an `insert_count : u64`.  Here the bit vector is a
`List Bool`, the counters are `Nat`, and the hasher is passed explicitly as a
pure function `Nat → List Nat → Nat` (seed and byte sequence to hash value),
mirroring the `BloomHasher` trait contract.  Operations that can panic in Rust
(`hash % 0` when the bit vector is empty) return `Option`, with `none`
modelling the panic.  The `f64` computations (`false_positive_rate`,
`optimal_vec_size`, `optimal_hash_functions`) are modelled over `ℝ`.
-/

namespace BloomSpec

/-- The `BloomHasher` capability: a pure function of a seed and a byte
sequence, as required by the trait `BloomHasher::hash(seed, bytes) -> u32`. -/
abbrev Hasher : Type := Nat → List Nat → Nat

/-- Embedding of `struct BloomFilter` from `src/bloom.rs`: hash-round count
`k`, the bit vector, and the running insert counter.  The hasher field is
factored out and passed to each operation explicitly. -/
structure BloomFilter where
  k : Nat
  bit_vec : List Bool
  insert_count : Nat
deriving DecidableEq

/-- Embedding of `BloomFilter::new(hasher, k, array_size)`: a bit vector of
`array_size` entries, all `false`, and a zero insert counter. -/
def BloomFilter.new (k : Nat) (array_size : Nat) : BloomFilter :=
  { k := k, bit_vec := List.replicate array_size false, insert_count := 0 }

/-- The seed loop of `BloomFilter::insert`: for each seed, compute
`hash(seed, bytes) % len` and set that bit to `true`.  When the bit vector is
empty the Rust expression `hash % self.bit_vec.len()` is a remainder by zero
and panics, modelled by `none`. -/
def insertLoop (hasher : Hasher) (bytes : List Nat) : List Bool → List Nat → Option (List Bool)
  | bv, [] => some bv
  | bv, seed :: rest =>
    if bv.length = 0 then none
    else insertLoop hasher bytes (bv.set (hasher seed bytes % bv.length) true) rest

/-- Embedding of `BloomFilter::insert(bytes)`: run the seed loop over seeds
`0..k`, then increment `insert_count` by one. -/
def BloomFilter.insert (f : BloomFilter) (hasher : Hasher) (bytes : List Nat) :
    Option BloomFilter :=
  (insertLoop hasher bytes f.bit_vec (List.range f.k)).map
    (fun bv => { k := f.k, bit_vec := bv, insert_count := f.insert_count + 1 })

/-- Embedding of `BloomFilter::insert_all(slice)`: insert each item in order. -/
def BloomFilter.insert_all (f : BloomFilter) (hasher : Hasher) :
    List (List Nat) → Option BloomFilter
  | [] => some f
  | item :: rest => (f.insert hasher item).bind (fun g => g.insert_all hasher rest)

/-- The seed loop of `BloomFilter::contains`: for each seed, look up the bit at
`hash(seed, bytes) % len`; the first `false` bit short-circuits to `false`,
and if all bits are `true` the result is `true`.  As in `insertLoop`, an empty
bit vector makes the remainder a division by zero, modelled by `none`. -/
def containsLoop (hasher : Hasher) (bytes : List Nat) (bv : List Bool) :
    List Nat → Option Bool
  | [] => some true
  | seed :: rest =>
    if h : bv.length = 0 then none
    else
      if bv.get ⟨hasher seed bytes % bv.length, Nat.mod_lt _ (Nat.pos_of_ne_zero h)⟩ = false
      then some false
      else containsLoop hasher bytes bv rest

/-- Embedding of `BloomFilter::contains(bytes)`. -/
def BloomFilter.contains (f : BloomFilter) (hasher : Hasher) (bytes : List Nat) :
    Option Bool :=
  containsLoop hasher bytes f.bit_vec (List.range f.k)

/-- Embedding of the free function `false_positive_rate(n, m, k)` from
`src/bloom.rs`: `(1 - e^(-(n as f64) * m as f64 / k as f64)).powf(k as f64)`,
with `f64` arithmetic modelled over `ℝ` and `powf` modelled by `Real.rpow`. -/
noncomputable def false_positive_rate (n m : Nat) (k : Nat) : ℝ :=
  (1 - Real.exp (-(n : ℝ) * (m : ℝ) / (k : ℝ))) ^ (k : ℝ)

/-- Embedding of `BloomFilter::false_positive_rate()`: the free function
applied to the current insert count, bit-vector length and hash-round count. -/
noncomputable def BloomFilter.false_positive_rate (f : BloomFilter) : ℝ :=
  BloomSpec.false_positive_rate f.insert_count f.bit_vec.length f.k

/-- Embedding of `optimal_vec_size(n, p)` from `src/bloom.rs`:
`(-(n as f64 * p.ln()) / LN_2.powi(2)).ceil() as u64`. -/
noncomputable def optimal_vec_size (n : Nat) (p : ℝ) : Nat :=
  (⌈-((n : ℝ) * Real.log p) / (Real.log 2) ^ 2⌉).toNat

/-- Embedding of `optimal_hash_functions(m, n)` from `src/bloom.rs`:
`1_f64.max(m as f64 / n as f64 * LN_2).ceil() as u32`. -/
noncomputable def optimal_hash_functions (m n : Nat) : Nat :=
  (⌈max 1 ((m : ℝ) / (n : ℝ) * Real.log 2)⌉).toNat

/-- Embedding of `BloomFilter::optimal(hasher, max_elements, error_rate)`:
panics (modelled by `none`) when `error_rate <= 0 || error_rate >= 1`, and
otherwise delegates to `new` with the computed parameters. -/
noncomputable def BloomFilter.optimal (max_elements : Nat) (error_rate : ℝ) :
    Option BloomFilter :=
  if error_rate ≤ 0 ∨ 1 ≤ error_rate then none
  else
    some (BloomFilter.new
      (optimal_hash_functions (optimal_vec_size max_elements error_rate) max_elements)
      (optimal_vec_size max_elements error_rate))

/-- One iteration of the insert seed loop as a fold step: set the bit at
`hash(seed, bytes) % len` to `true`. -/
def setStep (hasher : Hasher) (bytes : List Nat) (b : List Bool) (seed : Nat) : List Bool :=
  b.set (hasher seed bytes % b.length) true

lemma length_setStep (hasher : Hasher) (bytes : List Nat) (b : List Bool) (seed : Nat) :
    (setStep hasher bytes b seed).length = b.length := by
  simp [setStep]

lemma getD_set_true (l : List Bool) (i j : Nat) (hj : j < l.length) :
    (l.set j true).getD i false = (l.getD i false || (j == i)) := by
  induction l generalizing i j with
  | nil => exact absurd hj (Nat.not_lt_zero j)
  | cons a t ih =>
    cases j with
    | zero =>
      cases i with
      | zero => simp
      | succ i => simp
    | succ j =>
      cases i with
      | zero => simp
      | succ i =>
        have hj' : j < t.length := Nat.lt_of_succ_lt_succ hj
        simpa using ih i j hj'

lemma insertLoop_eq_foldl (hasher : Hasher) (bytes : List Nat) :
    ∀ (seeds : List Nat) (bv : List Bool), bv.length ≠ 0 →
      insertLoop hasher bytes bv seeds = some (seeds.foldl (setStep hasher bytes) bv)
  | [], bv, _ => by simp [insertLoop]
  | seed :: rest, bv, hbv => by
    rw [insertLoop, if_neg hbv, List.foldl_cons]
    exact insertLoop_eq_foldl hasher bytes rest (setStep hasher bytes bv seed)
      (by rw [length_setStep]; exact hbv)

lemma foldl_setStep_length (hasher : Hasher) (bytes : List Nat) :
    ∀ (seeds : List Nat) (bv : List Bool),
      (seeds.foldl (setStep hasher bytes) bv).length = bv.length
  | [], bv => rfl
  | seed :: rest, bv => by
    rw [List.foldl_cons, foldl_setStep_length hasher bytes rest, length_setStep]

lemma foldl_setStep_getD (hasher : Hasher) (bytes : List Nat) :
    ∀ (seeds : List Nat) (bv : List Bool), bv.length ≠ 0 → ∀ i,
      (seeds.foldl (setStep hasher bytes) bv).getD i false
        = (bv.getD i false || seeds.any (fun s => hasher s bytes % bv.length == i))
  | [], bv, _, i => by simp
  | seed :: rest, bv, hbv, i => by
    rw [List.foldl_cons,
      foldl_setStep_getD hasher bytes rest (setStep hasher bytes bv seed)
        (by rw [length_setStep]; exact hbv) i]
    rw [setStep, getD_set_true bv i _ (Nat.mod_lt _ (Nat.pos_of_ne_zero hbv))]
    simp [length_setStep, setStep, Bool.or_assoc]

lemma insertLoop_length (hasher : Hasher) (bytes : List Nat) :
    ∀ (seeds : List Nat) (bv bv' : List Bool),
      insertLoop hasher bytes bv seeds = some bv' → bv'.length = bv.length
  | [], bv, bv', h => by
    simp only [insertLoop, Option.some.injEq] at h
    rw [← h]
  | seed :: rest, bv, bv', h => by
    rw [insertLoop] at h
    by_cases hbv : bv.length = 0
    · rw [if_pos hbv] at h
      exact absurd h (by simp)
    · rw [if_neg hbv] at h
      have := insertLoop_length hasher bytes rest _ _ h
      rw [this, List.length_set]

lemma insertLoop_none (hasher : Hasher) (bytes : List Nat) (bv : List Bool)
    (seeds : List Nat) (hbv : bv.length = 0) (hs : seeds ≠ []) :
    insertLoop hasher bytes bv seeds = none := by
  cases seeds with
  | nil => exact absurd rfl hs
  | cons seed rest => rw [insertLoop, if_pos hbv]

lemma insertLoop_getD_mono (hasher : Hasher) (bytes : List Nat) :
    ∀ (seeds : List Nat) (bv bv' : List Bool),
      insertLoop hasher bytes bv seeds = some bv' →
      ∀ i, bv.getD i false = true → bv'.getD i false = true
  | [], bv, bv', h, i, hbit => by
    simp only [insertLoop, Option.some.injEq] at h
    rw [← h]; exact hbit
  | seed :: rest, bv, bv', h, i, hbit => by
    rw [insertLoop] at h
    by_cases hbv : bv.length = 0
    · rw [if_pos hbv] at h
      exact absurd h (by simp)
    · rw [if_neg hbv] at h
      refine insertLoop_getD_mono hasher bytes rest _ _ h i ?_
      rw [getD_set_true bv i _ (Nat.mod_lt _ (Nat.pos_of_ne_zero hbv)), hbit, Bool.true_or]

lemma containsLoop_eq (hasher : Hasher) (bytes : List Nat) :
    ∀ (seeds : List Nat) (bv : List Bool), bv.length ≠ 0 →
      containsLoop hasher bytes bv seeds
        = some (seeds.all (fun s => bv.getD (hasher s bytes % bv.length) false))
  | [], bv, _ => by simp [containsLoop]
  | seed :: rest, bv, hbv => by
    rw [containsLoop, dif_neg hbv]
    have hget : bv.get ⟨hasher seed bytes % bv.length, Nat.mod_lt _ (Nat.pos_of_ne_zero hbv)⟩
        = bv.getD (hasher seed bytes % bv.length) false := by
      rw [List.getD_eq_getElem bv false (Nat.mod_lt _ (Nat.pos_of_ne_zero hbv))]
      simp
    by_cases hbit : bv.getD (hasher seed bytes % bv.length) false = false
    · rw [if_pos (by rw [hget, hbit])]
      rw [List.all_cons, hbit, Bool.false_and]
    · rw [if_neg (by rw [hget]; exact hbit)]
      rw [containsLoop_eq hasher bytes rest bv hbv, List.all_cons,
        eq_true_of_ne_false hbit, Bool.true_and]

lemma insert_eq_of_ne_nil (hasher : Hasher) (f : BloomFilter) (bytes : List Nat)
    (hm : f.bit_vec.length ≠ 0) :
    f.insert hasher bytes = some
      { k := f.k,
        bit_vec := (List.range f.k).foldl (setStep hasher bytes) f.bit_vec,
        insert_count := f.insert_count + 1 } := by
  rw [BloomFilter.insert, insertLoop_eq_foldl hasher bytes _ _ hm, Option.map_some']

lemma insert_some_spec (hasher : Hasher) (f g : BloomFilter) (bytes : List Nat)
    (h : f.insert hasher bytes = some g) :
    g.k = f.k ∧ g.bit_vec.length = f.bit_vec.length ∧
      g.insert_count = f.insert_count + 1 := by
  rw [BloomFilter.insert, Option.map_eq_some'] at h
  obtain ⟨bv, hl, hg⟩ := h
  rw [← hg]
  exact ⟨rfl, insertLoop_length hasher bytes _ _ _ hl, rfl⟩

lemma insert_bit_mono (hasher : Hasher) (f g : BloomFilter) (bytes : List Nat)
    (h : f.insert hasher bytes = some g) :
    ∀ i, f.bit_vec.getD i false = true → g.bit_vec.getD i false = true := by
  rw [BloomFilter.insert, Option.map_eq_some'] at h
  obtain ⟨bv, hl, hg⟩ := h
  rw [← hg]
  exact insertLoop_getD_mono hasher bytes _ _ _ hl

lemma insert_all_some_spec (hasher : Hasher) :
    ∀ (items : List (List Nat)) (f g : BloomFilter), f.bit_vec.length ≠ 0 →
      f.insert_all hasher items = some g →
      g.k = f.k ∧ g.bit_vec.length = f.bit_vec.length ∧
        g.insert_count = f.insert_count + items.length ∧
        ∀ i, g.bit_vec.getD i false
          = (f.bit_vec.getD i false ||
             items.any (fun y => (List.range f.k).any
               (fun s => hasher s y % f.bit_vec.length == i)))
  | [], f, g, _, h => by
    simp only [BloomFilter.insert_all, Option.some.injEq] at h
    rw [← h]
    exact ⟨rfl, rfl, by simp, by simp⟩
  | item :: rest, f, g, hm, h => by
    rw [BloomFilter.insert_all, insert_eq_of_ne_nil hasher f item hm,
      Option.some_bind] at h
    have hm1 : ((List.range f.k).foldl (setStep hasher item) f.bit_vec).length
        = f.bit_vec.length := foldl_setStep_length hasher item _ _
    have IH := insert_all_some_spec hasher rest
      { k := f.k,
        bit_vec := (List.range f.k).foldl (setStep hasher item) f.bit_vec,
        insert_count := f.insert_count + 1 } g (by rw [hm1]; exact hm) h
    refine ⟨IH.1, IH.2.1.trans hm1, ?_, ?_⟩
    · rw [IH.2.2.1]
      simp [Nat.add_assoc, Nat.add_comm 1]
    · intro i
      rw [IH.2.2.2 i]
      simp only [hm1, foldl_setStep_getD hasher item (List.range f.k) f.bit_vec hm i]
      rw [List.any_cons, Bool.or_assoc]

lemma contains_eq (hasher : Hasher) (f : BloomFilter) (bytes : List Nat)
    (hm : f.bit_vec.length ≠ 0) :
    f.contains hasher bytes = some ((List.range f.k).all
      (fun s => f.bit_vec.getD (hasher s bytes % f.bit_vec.length) false)) :=
  containsLoop_eq hasher bytes (List.range f.k) f.bit_vec hm

lemma containsLoop_none (hasher : Hasher) (bytes : List Nat) (bv : List Bool)
    (seeds : List Nat) (hbv : bv.length = 0) (hs : seeds ≠ []) :
    containsLoop hasher bytes bv seeds = none := by
  cases seeds with
  | nil => exact absurd rfl hs
  | cons s rest => rw [containsLoop, dif_pos hbv]

/-- C1: for every filter with bit-array length at least 1 and a (pure) hasher,
after any sequence of inserts via `insert_all`, every inserted byte sequence
satisfies `contains = true` afterwards: zero false negatives. -/
theorem no_false_negatives (hasher : Hasher) (f : BloomFilter)
    (hm : 1 ≤ f.bit_vec.length) (items : List (List Nat)) (g : BloomFilter)
    (hins : f.insert_all hasher items = some g) (x : List Nat) (hx : x ∈ items) :
    g.contains hasher x = some true := by
  have hm0 : f.bit_vec.length ≠ 0 := by omega
  obtain ⟨hk, hlen, -, hbits⟩ := insert_all_some_spec hasher items f g hm0 hins
  have hmg : g.bit_vec.length ≠ 0 := by rw [hlen]; exact hm0
  rw [contains_eq hasher g x hmg]
  refine congrArg some ?_
  rw [List.all_eq_true]
  intro s hs
  rw [hk] at hs
  simp only [hlen, hbits (hasher s x % f.bit_vec.length)]
  have hany : items.any (fun y => (List.range f.k).any
      (fun s2 => hasher s2 y % f.bit_vec.length == hasher s x % f.bit_vec.length))
      = true := by
    rw [List.any_eq_true]
    refine ⟨x, hx, ?_⟩
    rw [List.any_eq_true]
    exact ⟨s, hs, by simp⟩
  rw [hany, Bool.or_true]

/-- Witness for C1: a concrete filter of size 5 with 3 hash rounds, two
inserted items, and a successful membership query on the first item. -/
theorem no_false_negatives_witness :
    1 ≤ (BloomFilter.new 3 5).bit_vec.length ∧
    (BloomFilter.new 3 5).insert_all (fun s b => s + 7 * b.headD 0) [[1], [2]]
      = some ⟨3, [true, true, true, true, true], 2⟩ ∧
    [1] ∈ [[1], [2]] ∧
    (⟨3, [true, true, true, true, true], 2⟩ : BloomFilter).contains
      (fun s b => s + 7 * b.headD 0) [1] = some true :=
  ⟨by decide, by decide, by decide,
    no_false_negatives (fun s b => s + 7 * b.headD 0) (BloomFilter.new 3 5)
      (by decide) [[1], [2]] ⟨3, [true, true, true, true, true], 2⟩ (by decide)
      [1] (by decide)⟩

/-- C6: a successful `insert` preserves the bit-array length and the
hash-round count, only ever turns bits from `false` to `true`, and increments
`insert_count` by exactly one (duplicates included, since the increment does
not depend on the bytes or the prior bits). -/
theorem insert_invariants (hasher : Hasher) (f g : BloomFilter) (bytes : List Nat)
    (h : f.insert hasher bytes = some g) :
    g.k = f.k ∧ g.bit_vec.length = f.bit_vec.length ∧
      g.insert_count = f.insert_count + 1 ∧
      ∀ i, f.bit_vec.getD i false = true → g.bit_vec.getD i false = true := by
  obtain ⟨h1, h2, h3⟩ := insert_some_spec hasher f g bytes h
  exact ⟨h1, h2, h3, insert_bit_mono hasher f g bytes h⟩

/-- Witness for C6: inserting `[0]` into a fresh filter with 2 rounds and 3
bits sets bits 0 and 1 and bumps the counter to 1. -/
theorem insert_invariants_witness :
    (BloomFilter.new 2 3).insert (fun s _ => s) [0] = some ⟨2, [true, true, false], 1⟩ ∧
    ((⟨2, [true, true, false], 1⟩ : BloomFilter).k = (BloomFilter.new 2 3).k ∧
      (⟨2, [true, true, false], 1⟩ : BloomFilter).bit_vec.length
        = (BloomFilter.new 2 3).bit_vec.length ∧
      (⟨2, [true, true, false], 1⟩ : BloomFilter).insert_count
        = (BloomFilter.new 2 3).insert_count + 1 ∧
      ∀ i, (BloomFilter.new 2 3).bit_vec.getD i false = true →
        (⟨2, [true, true, false], 1⟩ : BloomFilter).bit_vec.getD i false = true) :=
  ⟨by decide,
    insert_invariants (fun s _ => s) (BloomFilter.new 2 3)
      ⟨2, [true, true, false], 1⟩ [0] (by decide)⟩

/-- C8: on a well-formed filter (bit-array length at least 1), `insert` and
`contains` always succeed for every input, and every computed bit index
`hash(seed, bytes) % m` is strictly below `m`. -/
theorem operations_never_fail (hasher : Hasher) (f : BloomFilter)
    (hm : 1 ≤ f.bit_vec.length) (bytes : List Nat) :
    (f.insert hasher bytes).isSome ∧ (f.contains hasher bytes).isSome ∧
    ∀ seed, hasher seed bytes % f.bit_vec.length < f.bit_vec.length := by
  have hm0 : f.bit_vec.length ≠ 0 := by omega
  refine ⟨?_, ?_, fun seed => Nat.mod_lt _ (by omega)⟩
  · rw [insert_eq_of_ne_nil hasher f bytes hm0]
    rfl
  · rw [contains_eq hasher f bytes hm0]
    rfl

/-- Witness for C8: a filter with 1 round and 2 bits, queried at `[9]`. -/
theorem operations_never_fail_witness :
    1 ≤ (BloomFilter.new 1 2).bit_vec.length ∧
    ((BloomFilter.new 1 2).insert (fun s _ => s) [9]).isSome ∧
    ((BloomFilter.new 1 2).contains (fun s _ => s) [9]).isSome ∧
    ∀ seed, (fun (s : Nat) (_ : List Nat) => s) seed [9] % (BloomFilter.new 1 2).bit_vec.length
      < (BloomFilter.new 1 2).bit_vec.length :=
  ⟨by decide, operations_never_fail (fun s _ => s) (BloomFilter.new 1 2) (by decide) [9]⟩

/-- C9: `new` validates nothing, so `new` with `array_size = 0` succeeds and
returns a filter with the requested `k` and an empty bit vector; on that
filter every `insert` or `contains` call with `k ≥ 1` hits the remainder by
zero (`hash % 0`) and fails. -/
theorem new_zero_size_fails_later (hasher : Hasher) (k : Nat) (hk : 1 ≤ k)
    (bytes : List Nat) :
    (BloomFilter.new k 0).k = k ∧ (BloomFilter.new k 0).bit_vec.length = 0 ∧
    (BloomFilter.new k 0).insert_count = 0 ∧
    (BloomFilter.new k 0).insert hasher bytes = none ∧
    (BloomFilter.new k 0).contains hasher bytes = none := by
  have hrange : List.range k ≠ [] := by
    rw [Ne, List.range_eq_nil]
    omega
  refine ⟨rfl, by simp [BloomFilter.new], rfl, ?_, ?_⟩
  · rw [BloomFilter.insert, show (BloomFilter.new k 0).bit_vec = [] from rfl,
      show (BloomFilter.new k 0).k = k from rfl,
      insertLoop_none hasher bytes [] _ rfl hrange]
    rfl
  · rw [BloomFilter.contains, show (BloomFilter.new k 0).bit_vec = [] from rfl,
      show (BloomFilter.new k 0).k = k from rfl,
      containsLoop_none hasher bytes [] _ rfl hrange]

/-- Witness for C9: `k = 1`, zero-length bit array, input `[4]`. -/
theorem new_zero_size_fails_later_witness :
    1 ≤ 1 ∧
    ((BloomFilter.new 1 0).k = 1 ∧ (BloomFilter.new 1 0).bit_vec.length = 0 ∧
      (BloomFilter.new 1 0).insert_count = 0 ∧
      (BloomFilter.new 1 0).insert (fun s _ => s + 1) [4] = none ∧
      (BloomFilter.new 1 0).contains (fun s _ => s + 1) [4] = none) :=
  ⟨by decide, new_zero_size_fails_later (fun s _ => s + 1) 1 (by decide) [4]⟩

/-- C10: `new` accepts `k = 0` without validation, and on any filter whose
hash-round count is zero the seed loops are empty: `contains` returns `true`
for every input, and `insert` leaves every bit unchanged while still
incrementing `insert_count` by one. -/
theorem zero_rounds_behaviour (hasher : Hasher) (m : Nat) (f : BloomFilter)
    (hk : f.k = 0) (bytes : List Nat) :
    (BloomFilter.new 0 m).k = 0 ∧
    f.contains hasher bytes = some true ∧
    f.insert hasher bytes = some ⟨f.k, f.bit_vec, f.insert_count + 1⟩ := by
  refine ⟨rfl, ?_, ?_⟩
  · rw [BloomFilter.contains, hk]
    rfl
  · rw [BloomFilter.insert, hk]
    rfl

/-- Witness for C10: a filter with zero rounds, two bits, and counter 5. -/
theorem zero_rounds_behaviour_witness :
    (⟨0, [false, true], 5⟩ : BloomFilter).k = 0 ∧
    ((BloomFilter.new 0 4).k = 0 ∧
      (⟨0, [false, true], 5⟩ : BloomFilter).contains (fun s _ => s) [2] = some true ∧
      (⟨0, [false, true], 5⟩ : BloomFilter).insert (fun s _ => s) [2]
        = some ⟨0, [false, true], 6⟩) :=
  ⟨by decide, zero_rounds_behaviour (fun s _ => s) 4 ⟨0, [false, true], 5⟩ (by decide) [2]⟩

lemma setStep_comm (hasher : Hasher) (by1 by2 : List Nat) (b : List Bool)
    (s1 s2 : Nat) :
    setStep hasher by2 (setStep hasher by1 b s1) s2
      = setStep hasher by1 (setStep hasher by2 b s2) s1 := by
  simp only [setStep, List.length_set]
  by_cases hij : hasher s1 by1 % b.length = hasher s2 by2 % b.length
  · rw [hij]
  · rw [List.set_comm _ _ _ hij]

lemma foldl_setStep_push (hasher : Hasher) (by1 by2 : List Nat) (s : Nat) :
    ∀ (seeds : List Nat) (bv : List Bool),
      seeds.foldl (setStep hasher by2) (setStep hasher by1 bv s)
        = setStep hasher by1 (seeds.foldl (setStep hasher by2) bv) s
  | [], bv => rfl
  | t :: rest, bv => by
    rw [List.foldl_cons, setStep_comm hasher by1 by2 bv s t,
      foldl_setStep_push hasher by1 by2 s rest, List.foldl_cons]

lemma foldl_setStep_swap (hasher : Hasher) (by1 by2 : List Nat) :
    ∀ (seeds1 seeds2 : List Nat) (bv : List Bool),
      seeds2.foldl (setStep hasher by2) (seeds1.foldl (setStep hasher by1) bv)
        = seeds1.foldl (setStep hasher by1) (seeds2.foldl (setStep hasher by2) bv)
  | [], _, _ => rfl
  | s :: rest1, seeds2, bv => by
    rw [List.foldl_cons, foldl_setStep_swap hasher by1 by2 rest1 seeds2,
      foldl_setStep_push hasher by1 by2 s seeds2, List.foldl_cons]

lemma insert_insert_comm (hasher : Hasher) (f : BloomFilter) (a b : List Nat) :
    (f.insert hasher a).bind (fun g => g.insert hasher b)
      = (f.insert hasher b).bind (fun g => g.insert hasher a) := by
  by_cases hm : f.bit_vec.length = 0
  · cases hk : f.k with
    | zero =>
      have ha : f.insert hasher a = some ⟨f.k, f.bit_vec, f.insert_count + 1⟩ := by
        rw [BloomFilter.insert, hk]
        rfl
      have hb : f.insert hasher b = some ⟨f.k, f.bit_vec, f.insert_count + 1⟩ := by
        rw [BloomFilter.insert, hk]
        rfl
      rw [ha, hb, Option.some_bind, Option.some_bind, BloomFilter.insert,
        BloomFilter.insert]
      rw [show (⟨f.k, f.bit_vec, f.insert_count + 1⟩ : BloomFilter).k = f.k from rfl, hk]
      rfl
    | succ j =>
      have hr : List.range f.k ≠ [] := by
        rw [Ne, List.range_eq_nil, hk]
        omega
      have ha : f.insert hasher a = none := by
        rw [BloomFilter.insert, insertLoop_none hasher a _ _ hm hr]
        rfl
      have hb : f.insert hasher b = none := by
        rw [BloomFilter.insert, insertLoop_none hasher b _ _ hm hr]
        rfl
      rw [ha, hb]
      rfl
  · have hA : f.insert hasher a = some ⟨f.k,
        (List.range f.k).foldl (setStep hasher a) f.bit_vec, f.insert_count + 1⟩ :=
      insert_eq_of_ne_nil hasher f a hm
    have hB : f.insert hasher b = some ⟨f.k,
        (List.range f.k).foldl (setStep hasher b) f.bit_vec, f.insert_count + 1⟩ :=
      insert_eq_of_ne_nil hasher f b hm
    have hlA : (⟨f.k, (List.range f.k).foldl (setStep hasher a) f.bit_vec,
        f.insert_count + 1⟩ : BloomFilter).bit_vec.length ≠ 0 := by
      show ((List.range f.k).foldl (setStep hasher a) f.bit_vec).length ≠ 0
      rw [foldl_setStep_length]
      exact hm
    have hlB : (⟨f.k, (List.range f.k).foldl (setStep hasher b) f.bit_vec,
        f.insert_count + 1⟩ : BloomFilter).bit_vec.length ≠ 0 := by
      show ((List.range f.k).foldl (setStep hasher b) f.bit_vec).length ≠ 0
      rw [foldl_setStep_length]
      exact hm
    rw [hA, hB, Option.some_bind, Option.some_bind,
      insert_eq_of_ne_nil hasher _ b hlA, insert_eq_of_ne_nil hasher _ a hlB]
    refine congrArg some ?_
    show (⟨f.k, (List.range f.k).foldl (setStep hasher b)
        ((List.range f.k).foldl (setStep hasher a) f.bit_vec),
        f.insert_count + 1 + 1⟩ : BloomFilter)
      = ⟨f.k, (List.range f.k).foldl (setStep hasher a)
        ((List.range f.k).foldl (setStep hasher b) f.bit_vec),
        f.insert_count + 1 + 1⟩
    rw [foldl_setStep_swap]

/-- C7: `insert_all` applies `insert` to each item of the sequence in order,
and the order has no observable effect: permuted input sequences produce the
same final filter state (same bit array and same insert counter). -/
theorem insert_all_perm_invariant (hasher : Hasher) :
    (∀ (f : BloomFilter) (x : List Nat) (xs : List (List Nat)),
      f.insert_all hasher (x :: xs)
        = (f.insert hasher x).bind (fun g => g.insert_all hasher xs)) ∧
    ∀ (l1 l2 : List (List Nat)), l1.Perm l2 →
      ∀ f : BloomFilter, f.insert_all hasher l1 = f.insert_all hasher l2 := by
  refine ⟨fun f x xs => rfl, fun l1 l2 hp => ?_⟩
  induction hp with
  | nil => exact fun f => rfl
  | cons x p IH =>
    intro f
    show (f.insert hasher x).bind _ = (f.insert hasher x).bind _
    cases hI : f.insert hasher x with
    | none => rfl
    | some g =>
      rw [Option.some_bind, Option.some_bind]
      exact IH g
  | swap x y l =>
    intro f
    show (f.insert hasher y).bind (fun g => (g.insert hasher x).bind
        (fun g2 => g2.insert_all hasher l))
      = (f.insert hasher x).bind (fun g => (g.insert hasher y).bind
        (fun g2 => g2.insert_all hasher l))
    rw [← Option.bind_assoc, ← Option.bind_assoc, insert_insert_comm]
  | trans _ _ IH1 IH2 => exact fun f => (IH1 f).trans (IH2 f)

/-- Witness for C7: the two orders of inserting `[1]` and `[2]` into a fresh
filter with 2 rounds and 3 bits give the same state. -/
theorem insert_all_perm_invariant_witness :
    ([[1], [2]] : List (List Nat)).Perm [[2], [1]] ∧
    (BloomFilter.new 2 3).insert_all (fun s bs => s + 3 * bs.headD 0) [[1], [2]]
      = (BloomFilter.new 2 3).insert_all (fun s bs => s + 3 * bs.headD 0) [[2], [1]] :=
  ⟨by decide, (insert_all_perm_invariant (fun s bs => s + 3 * bs.headD 0)).2
    [[1], [2]] [[2], [1]] (by decide) (BloomFilter.new 2 3)⟩

/-- C3: `optimal` fails (returns no filter) exactly when the error rate lies
outside the open interval `(0, 1)`; in particular both boundary values fail,
and every rate strictly inside the interval produces a filter. -/
theorem optimal_fails_iff :
    (∀ (n : Nat) (p : ℝ), BloomFilter.optimal n p = none ↔ p ≤ 0 ∨ 1 ≤ p) ∧
    ∀ n : Nat, BloomFilter.optimal n 0 = none ∧ BloomFilter.optimal n 1 = none := by
  have key : ∀ (n : Nat) (p : ℝ), BloomFilter.optimal n p = none ↔ p ≤ 0 ∨ 1 ≤ p := by
    intro n p
    rw [BloomFilter.optimal]
    split_ifs with h
    · simp [h]
    · simp [h]
  exact ⟨key, fun n => ⟨(key n 0).mpr (Or.inl le_rfl), (key n 1).mpr (Or.inr le_rfl)⟩⟩

lemma exp_arg_nonpos (n m k : Nat) : -(n : ℝ) * (m : ℝ) / (k : ℝ) ≤ 0 := by
  rw [div_nonpos_iff]
  right
  constructor
  · have hn : (0 : ℝ) ≤ (n : ℝ) * (m : ℝ) :=
      mul_nonneg (Nat.cast_nonneg n) (Nat.cast_nonneg m)
    nlinarith
  · exact Nat.cast_nonneg k

lemma fpr_base_nonneg (n m k : Nat) :
    0 ≤ 1 - Real.exp (-(n : ℝ) * (m : ℝ) / (k : ℝ)) := by
  have h := Real.exp_le_one_iff.mpr (exp_arg_nonpos n m k)
  linarith

lemma fpr_base_le_one (n m k : Nat) :
    1 - Real.exp (-(n : ℝ) * (m : ℝ) / (k : ℝ)) ≤ 1 := by
  have h := Real.exp_pos (-(n : ℝ) * (m : ℝ) / (k : ℝ))
  linarith

/-- C4: `false_positive_rate` is exactly `(1 - e^(-n*m/k))^k` for the current
insert count `n`, bit-array length `m` and hash-round count `k`, and its
value always lies in `[0, 1]`. -/
theorem false_positive_rate_formula (f : BloomFilter) :
    f.false_positive_rate
      = (1 - Real.exp (-(f.insert_count : ℝ) * (f.bit_vec.length : ℝ) / (f.k : ℝ)))
          ^ (f.k : ℝ)
    ∧ 0 ≤ f.false_positive_rate ∧ f.false_positive_rate ≤ 1 := by
  refine ⟨rfl, ?_, ?_⟩
  · exact Real.rpow_nonneg
      (fpr_base_nonneg f.insert_count f.bit_vec.length f.k) _
  · exact Real.rpow_le_one
      (fpr_base_nonneg f.insert_count f.bit_vec.length f.k)
      (fpr_base_le_one f.insert_count f.bit_vec.length f.k)
      (Nat.cast_nonneg f.k)

lemma false_positive_rate_mono (n m k : Nat) :
    false_positive_rate n m k ≤ false_positive_rate (n + 1) m k := by
  rw [false_positive_rate, false_positive_rate]
  refine Real.rpow_le_rpow (fpr_base_nonneg n m k) ?_ (Nat.cast_nonneg k)
  have harg : -((n + 1 : Nat) : ℝ) * (m : ℝ) / (k : ℝ) ≤ -(n : ℝ) * (m : ℝ) / (k : ℝ) := by
    rcases Nat.eq_zero_or_pos k with hk | hk
    · rw [hk]
      norm_num
    · have hkpos : (0 : ℝ) < (k : ℝ) := Nat.cast_pos.mpr hk
      rw [div_le_div_iff_of_pos_right hkpos]
      have hm : (0 : ℝ) ≤ (m : ℝ) := Nat.cast_nonneg m
      push_cast
      nlinarith
  have := Real.exp_le_exp.mpr harg
  linarith

/-- C5: on a fixed-size filter, `false_positive_rate` never decreases across
an `insert` call: the rate after any successful insert is at least the rate
before it. -/
theorem fpr_monotone_under_insert (hasher : Hasher) (f g : BloomFilter)
    (bytes : List Nat) (h : f.insert hasher bytes = some g) :
    f.false_positive_rate ≤ g.false_positive_rate := by
  obtain ⟨hk, hlen, hc⟩ := insert_some_spec hasher f g bytes h
  rw [BloomFilter.false_positive_rate, BloomFilter.false_positive_rate,
    hk, hlen, hc]
  exact false_positive_rate_mono f.insert_count f.bit_vec.length f.k

/-- Witness for C5: inserting `[3]` into a fresh 1-round, 1-bit filter. -/
theorem fpr_monotone_under_insert_witness :
    (BloomFilter.new 1 1).insert (fun s _ => s) [3] = some ⟨1, [true], 1⟩ ∧
    (BloomFilter.new 1 1).false_positive_rate
      ≤ (⟨1, [true], 1⟩ : BloomFilter).false_positive_rate :=
  ⟨by decide, fpr_monotone_under_insert (fun s _ => s) (BloomFilter.new 1 1)
    ⟨1, [true], 1⟩ [3] (by decide)⟩

lemma log_five_quarter_bounds :
    0.2231431 < Real.log (5 / 4) ∧ Real.log (5 / 4) < 0.2231440 := by
  have habs : |(-4⁻¹ : ℝ)| < 1 := by
    rw [abs_neg, abs_inv]
    norm_num
  have z := Real.abs_log_sub_add_sum_range_le habs 10
  have h54 : (1 : ℝ) - -4⁻¹ = 5 / 4 := by norm_num
  rw [h54] at z
  have habs4 : |(-4⁻¹ : ℝ)| = 4⁻¹ := by
    rw [abs_neg, abs_inv]
    norm_num
  rw [habs4, abs_le] at z
  obtain ⟨z1, z2⟩ := z
  simp_rw [Finset.sum_range_succ] at z1 z2
  norm_num at z1 z2
  constructor <;> linarith

lemma log_hundred_eq : Real.log 100 = 6 * Real.log 2 + 2 * Real.log (5 / 4) := by
  have h : (100 : ℝ) = 2 ^ 6 * (5 / 4) ^ 2 := by norm_num
  rw [h, Real.log_mul (by norm_num) (by norm_num), Real.log_pow, Real.log_pow]
  push_cast
  ring

lemma log_hundred_bounds : 4.6051692 < Real.log 100 ∧ Real.log 100 < 4.6051711 := by
  obtain ⟨d1, d2⟩ := log_five_quarter_bounds
  have l1 := Real.log_two_gt_d9
  have l2 := Real.log_two_lt_d9
  rw [log_hundred_eq]
  constructor <;> linarith

lemma log_two_sq_bounds :
    0.4804530135 < (Real.log 2) ^ 2 ∧ (Real.log 2) ^ 2 < 0.4804530143 := by
  have l1 := Real.log_two_gt_d9
  have l2 := Real.log_two_lt_d9
  constructor
  · nlinarith [l1, sq_nonneg (Real.log 2 - 0.6931471803)]
  · nlinarith [l1, l2, sq_nonneg (Real.log 2 - 0.6931471808)]

lemma log_hundredth_eq : Real.log (0.01 : ℝ) = -Real.log 100 := by
  rw [show (0.01 : ℝ) = (100 : ℝ)⁻¹ by norm_num, Real.log_inv]

lemma ceil_m_10000 :
    ⌈-((10000 : ℝ) * Real.log 0.01) / (Real.log 2) ^ 2⌉ = 95851 := by
  obtain ⟨hs1, hs2⟩ := log_two_sq_bounds
  obtain ⟨hl1, hl2⟩ := log_hundred_bounds
  have hpos : (0 : ℝ) < (Real.log 2) ^ 2 := by nlinarith
  rw [log_hundredth_eq, Int.ceil_eq_iff]
  constructor
  · rw [lt_div_iff₀ hpos]
    push_cast
    nlinarith
  · rw [div_le_iff₀ hpos]
    push_cast
    nlinarith

lemma ceil_m_1000 :
    ⌈-((1000 : ℝ) * Real.log 0.01) / (Real.log 2) ^ 2⌉ = 9586 := by
  obtain ⟨hs1, hs2⟩ := log_two_sq_bounds
  obtain ⟨hl1, hl2⟩ := log_hundred_bounds
  have hpos : (0 : ℝ) < (Real.log 2) ^ 2 := by nlinarith
  rw [log_hundredth_eq, Int.ceil_eq_iff]
  constructor
  · rw [lt_div_iff₀ hpos]
    push_cast
    nlinarith
  · rw [div_le_iff₀ hpos]
    push_cast
    nlinarith

lemma ceil_k_95851 : ⌈max 1 ((95851 : ℝ) / (10000 : ℝ) * Real.log 2)⌉ = 7 := by
  have l1 := Real.log_two_gt_d9
  have l2 := Real.log_two_lt_d9
  have hge : (1 : ℝ) ≤ (95851 : ℝ) / (10000 : ℝ) * Real.log 2 := by nlinarith
  rw [max_eq_right hge, Int.ceil_eq_iff]
  constructor
  · push_cast
    nlinarith
  · push_cast
    nlinarith

lemma ceil_k_9586 : ⌈max 1 ((9586 : ℝ) / (1000 : ℝ) * Real.log 2)⌉ = 7 := by
  have l1 := Real.log_two_gt_d9
  have l2 := Real.log_two_lt_d9
  have hge : (1 : ℝ) ≤ (9586 : ℝ) / (1000 : ℝ) * Real.log 2 := by nlinarith
  rw [max_eq_right hge, Int.ceil_eq_iff]
  constructor
  · push_cast
    nlinarith
  · push_cast
    nlinarith

lemma optimal_vec_size_10000 : optimal_vec_size 10000 0.01 = 95851 := by
  rw [optimal_vec_size, show ((10000 : Nat) : ℝ) = (10000 : ℝ) by norm_num,
    ceil_m_10000]
  rfl

lemma optimal_vec_size_1000 : optimal_vec_size 1000 0.01 = 9586 := by
  rw [optimal_vec_size, show ((1000 : Nat) : ℝ) = (1000 : ℝ) by norm_num,
    ceil_m_1000]
  rfl

lemma optimal_hash_functions_95851 : optimal_hash_functions 95851 10000 = 7 := by
  rw [optimal_hash_functions, show ((95851 : Nat) : ℝ) = (95851 : ℝ) by norm_num,
    show ((10000 : Nat) : ℝ) = (10000 : ℝ) by norm_num, ceil_k_95851]
  rfl

lemma optimal_hash_functions_9586 : optimal_hash_functions 9586 1000 = 7 := by
  rw [optimal_hash_functions, show ((9586 : Nat) : ℝ) = (9586 : ℝ) by norm_num,
    show ((1000 : Nat) : ℝ) = (1000 : ℝ) by norm_num, ceil_k_9586]
  rfl

/-- C2: `optimal_vec_size` is the ceiling formula for `m`, and
`optimal_hash_functions` agrees with `max(1, ceil((m/n) * ln 2))`; on the two
reference inputs, `optimal` yields `m = 95851, k = 7` and `m = 9586, k = 7`. -/
theorem optimal_parameters :
    (∀ (n : Nat) (p : ℝ), optimal_vec_size n p
        = (⌈-((n : ℝ) * Real.log p) / (Real.log 2) ^ 2⌉).toNat) ∧
    (∀ m n : Nat, optimal_hash_functions m n
        = max 1 (⌈(m : ℝ) / (n : ℝ) * Real.log 2⌉.toNat)) ∧
    BloomFilter.optimal 10000 0.01 = some (BloomFilter.new 7 95851) ∧
    BloomFilter.optimal 1000 0.01 = some (BloomFilter.new 7 9586) := by
  refine ⟨fun n p => rfl, ?_, ?_, ?_⟩
  · intro m n
    have hmax : ⌈max 1 ((m : ℝ) / (n : ℝ) * Real.log 2)⌉
        = max ⌈(1 : ℝ)⌉ ⌈(m : ℝ) / (n : ℝ) * Real.log 2⌉ := by
      rcases le_total (1 : ℝ) ((m : ℝ) / (n : ℝ) * Real.log 2) with h | h
      · rw [max_eq_right h, max_eq_right (Int.ceil_mono h)]
      · rw [max_eq_left h, max_eq_left (Int.ceil_mono h)]
    rw [optimal_hash_functions, hmax, Int.ceil_one]
    omega
  · rw [BloomFilter.optimal, if_neg (by norm_num), optimal_vec_size_10000,
      optimal_hash_functions_95851]
  · rw [BloomFilter.optimal, if_neg (by norm_num), optimal_vec_size_1000,
      optimal_hash_functions_9586]

end BloomSpec
